import Mathlib

/-!
Verification of the spike-train generation and analysis library
(`neurotools.py`) against its natural-language specification.

Times, rates and potentials are modelled as exact rationals (the source
uses floating point; all claims under study are about exact structural
behaviour, not rounding).  Randomness (numpy `random.exponential`,
`random.normal`) is modelled by passing the drawn samples explicitly as
list arguments, as the specification itself recommends for a faithful
reimplementation.
-/

namespace Neurotools

/-- numpy `astype(int)` / python `int()` conversion: truncation toward zero. -/
def ratTrunc (q : ℚ) : ℤ := if q < 0 then ⌈q⌉ else ⌊q⌋

/-- numpy `diff`: consecutive differences of a list. -/
def listDiff : List ℚ → List ℚ
  | a :: b :: rest => (b - a) :: listDiff (b :: rest)
  | _ => []

/-- numpy `mean` of a list (0 on the empty list, where numpy returns NaN;
no claim under study depends on the empty-mean value). -/
def listMean (l : List ℚ) : ℚ := l.sum / (l.length : ℚ)

/-- Sum of `g` over adjacent pairs of a list; the closed form of the
`for i in range(N-1)` accumulation loops of the irregularity measures. -/
def pairSum (g : ℚ → ℚ → ℚ) : List ℚ → ℚ
  | a :: b :: t => g a b + pairSum g (b :: t)
  | _ => 0

theorem listDiff_length (l : List ℚ) : (listDiff l).length = l.length - 1 := by
  induction l with
  | nil => rfl
  | cons a t ih =>
    cases t with
    | nil => rfl
    | cons b t' =>
      simp only [listDiff, List.length_cons] at *
      omega

/-- Ascending insertion, the building block of the sorting step
(`jspiketrain.sort()` in the source). -/
def insertSorted (x : ℚ) : List ℚ → List ℚ
  | [] => [x]
  | y :: t => if x ≤ y then x :: y :: t else y :: insertSorted x t

/-- Ascending sort of a list of times (`jspiketrain.sort()`). -/
def sortList : List ℚ → List ℚ
  | [] => []
  | x :: t => insertSorted x (sortList t)

/-- numpy `cumsum` with an explicit running total. -/
def cumsumFrom (acc : ℚ) : List ℚ → List ℚ
  | [] => []
  | x :: t => (acc + x) :: cumsumFrom (acc + x) t

/-- numpy `cumsum`: running partial sums. -/
def cumsum (l : List ℚ) : List ℚ := cumsumFrom 0 l

/-- `min(intervals)` of the source; 0 on the empty list, a case the callers
below never reach (the source raises ValueError there, which the embedding
of `add_gauss_jitter` surfaces as `none` before taking any minimum). -/
def minOf : List ℚ → ℚ
  | [] => 0
  | a :: t => t.foldl min a

/-- One iteration of the spacing-correction loop of `add_gauss_jitter`:
`index = where(intervals == min(intervals))[0][0]; intervals[index] += dt`. -/
def bumpMin (dt : ℚ) (l : List ℚ) : List ℚ :=
  let idx := l.indexOf (minOf l)
  l.set idx (l.getD idx 0 + dt)

/-- Number of `+= dt` corrections still needed to bring the value `e` up to
`dt`; used only as the iteration count of the correction loop. -/
def bumps (dt e : ℚ) : ℕ := (⌈(dt - e) / dt⌉).toNat

/-- The `while min(intervals) < dt` loop of `add_gauss_jitter`, with an
explicit iteration counter. -/
def fixIntervalsFuel (dt : ℚ) : ℕ → List ℚ → List ℚ
  | 0, l => l
  | fuel + 1, l => if minOf l < dt then fixIntervalsFuel dt fuel (bumpMin dt l) else l

/-- The spacing-correction loop of `add_gauss_jitter`.  The counter
`(l.map (bumps dt)).sum` is exactly the number of iterations the source
loop performs when `0 < dt` (each iteration lowers the sum by one, and the
loop condition fails exactly when the sum is zero); for `dt <= 0` the source
loop would not terminate whenever some interval is below `dt`, a case no
caller reaches. -/
def fixIntervals (dt : ℚ) (l : List ℚ) : List ℚ :=
  fixIntervalsFuel dt ((l.map (bumps dt)).sum) l

/-- Embedding of `add_gauss_jitter`.  `offsets` are the per-spike
`random.normal(0, jitter, len(spiketrain))` draws, passed explicitly.  The
source raises ValueError (`min` of an empty array) when the jittered train
has no interval, i.e. fewer than two spikes; the embedding returns `none`
there.  Note the source rebuilds the train as `cumsum(diff(...))`, which
drops one event. -/
def add_gauss_jitter (spiketrain offsets : List ℚ) (jitter dt : ℚ) : Option (List ℚ) :=
  if jitter = 0 then some spiketrain
  else
    let jst := sortList (List.zipWith (· + ·) spiketrain offsets)
    let intervals := listDiff jst
    if intervals = [] then none
    else some (cumsum (fixIntervals dt intervals))

theorem insertSorted_length (x : ℚ) (l : List ℚ) :
    (insertSorted x l).length = l.length + 1 := by
  induction l with
  | nil => rfl
  | cons y t ih =>
    by_cases h : x ≤ y <;> simp [insertSorted, h, ih]

theorem sortList_length (l : List ℚ) : (sortList l).length = l.length := by
  induction l with
  | nil => rfl
  | cons x t ih => simp [sortList, insertSorted_length, ih]

theorem cumsumFrom_length (acc : ℚ) (l : List ℚ) :
    (cumsumFrom acc l).length = l.length := by
  induction l generalizing acc with
  | nil => rfl
  | cons x t ih => simp [cumsumFrom, ih]

theorem bumpMin_length (dt : ℚ) (l : List ℚ) : (bumpMin dt l).length = l.length := by
  simp [bumpMin]

theorem fixIntervalsFuel_length (dt : ℚ) (fuel : ℕ) (l : List ℚ) :
    (fixIntervalsFuel dt fuel l).length = l.length := by
  induction fuel generalizing l with
  | zero => rfl
  | succ fuel ih =>
    by_cases h : minOf l < dt <;> simp [fixIntervalsFuel, h, ih, bumpMin_length]

theorem foldl_min_le_init (t : List ℚ) (a : ℚ) : t.foldl min a ≤ a := by
  induction t generalizing a with
  | nil => exact le_refl a
  | cons x t ih =>
    exact le_trans (ih (min a x)) (min_le_left a x)

theorem foldl_min_le_mem (t : List ℚ) (a x : ℚ) (hx : x ∈ t) : t.foldl min a ≤ x := by
  induction t generalizing a with
  | nil => cases hx
  | cons y t ih =>
    rcases List.mem_cons.mp hx with h | h
    · subst h
      exact le_trans (foldl_min_le_init t (min a x)) (min_le_right a x)
    · exact ih (min a y) h

theorem minOf_le (l : List ℚ) (x : ℚ) (hx : x ∈ l) : minOf l ≤ x := by
  cases l with
  | nil => cases hx
  | cons a t =>
    rcases List.mem_cons.mp hx with h | h
    · subst h; exact foldl_min_le_init t x
    · exact foldl_min_le_mem t a x h

theorem foldl_min_mem (t : List ℚ) (a : ℚ) : t.foldl min a = a ∨ t.foldl min a ∈ t := by
  induction t generalizing a with
  | nil => exact Or.inl rfl
  | cons x t ih =>
    simp only [List.foldl_cons]
    rcases ih (min a x) with h | h
    · rcases le_total a x with hax | hax
      · rw [min_eq_left hax] at h ⊢
        exact Or.inl h
      · rw [min_eq_right hax] at h ⊢
        rw [h]
        exact Or.inr (List.mem_cons_self x t)
    · exact Or.inr (List.mem_cons_of_mem x h)

theorem minOf_mem (l : List ℚ) (hne : l ≠ []) : minOf l ∈ l := by
  cases l with
  | nil => exact absurd rfl hne
  | cons a t =>
    rcases foldl_min_mem t a with h | h
    · simp [minOf, h]
    · exact List.mem_cons_of_mem a h

theorem bumps_pos (dt e : ℚ) (hdt : 0 < dt) (he : e < dt) : 1 ≤ bumps dt e := by
  have h1 : (0 : ℚ) < (dt - e) / dt := div_pos (by linarith) hdt
  have h2 : (0 : ℤ) < ⌈(dt - e) / dt⌉ := Int.ceil_pos.mpr h1
  simp only [bumps]
  omega

theorem bumps_eq_zero (dt e : ℚ) (hdt : 0 < dt) (h : bumps dt e = 0) : dt ≤ e := by
  simp only [bumps, Int.toNat_eq_zero] at h
  have h2 : (dt - e) / dt ≤ 0 := by
    by_contra hc
    push_neg at hc
    have := Int.ceil_pos.mpr hc
    omega
  rcases div_nonpos_iff.mp h2 with ⟨_, hb⟩ | ⟨ha, _⟩
  · linarith
  · linarith

theorem bumps_step (dt e : ℚ) (hdt : 0 < dt) (he : e < dt) :
    bumps dt (e + dt) + 1 = bumps dt e := by
  have hne : dt ≠ 0 := ne_of_gt hdt
  have harg : (dt - (e + dt)) / dt = (dt - e) / dt - 1 := by
    field_simp
  have hceil : ⌈(dt - (e + dt)) / dt⌉ = ⌈(dt - e) / dt⌉ - 1 := by
    rw [harg]
    exact_mod_cast Int.ceil_sub_int ((dt - e) / dt) 1
  have hpos : (0 : ℤ) < ⌈(dt - e) / dt⌉ :=
    Int.ceil_pos.mpr (div_pos (by linarith) hdt)
  simp only [bumps, hceil]
  omega

theorem sum_map_set (f : ℚ → ℕ) (l : List ℚ) (i : ℕ) (v : ℚ) (h : i < l.length) :
    ((l.set i v).map f).sum + f (l.getD i 0) = (l.map f).sum + f v := by
  induction l generalizing i with
  | nil => simp at h
  | cons a t ih =>
    cases i with
    | zero => simp [List.set]; omega
    | succ j =>
      simp only [List.set, List.map_cons, List.sum_cons, List.getD_cons_succ]
      have := ih j (by simpa using h)
      omega

theorem sum_bumps_bumpMin (dt : ℚ) (l : List ℚ) (hdt : 0 < dt)
    (hne : l ≠ []) (hmin : minOf l < dt) :
    ((bumpMin dt l).map (bumps dt)).sum + 1 = (l.map (bumps dt)).sum := by
  have hmem : minOf l ∈ l := minOf_mem l hne
  have hidx : l.indexOf (minOf l) < l.length := List.indexOf_lt_length.mpr hmem
  have hgetD : l.getD (l.indexOf (minOf l)) 0 = minOf l := by
    rw [List.getD_eq_getElem l 0 hidx]
    exact List.getElem_indexOf hidx
  have hset := sum_map_set (bumps dt) l (l.indexOf (minOf l)) (minOf l + dt) hidx
  rw [hgetD] at hset
  have hstep := bumps_step dt (minOf l) hdt hmin
  simp only [bumpMin, hgetD]
  omega

theorem fixIntervalsFuel_nil (dt : ℚ) (fuel : ℕ) : fixIntervalsFuel dt fuel [] = [] := by
  induction fuel with
  | zero => rfl
  | succ fuel ih =>
    by_cases h : minOf [] < dt <;> simp [fixIntervalsFuel, h, bumpMin, minOf, ih]

theorem fixIntervalsFuel_ge (dt : ℚ) (hdt : 0 < dt) :
    ∀ (fuel : ℕ) (l : List ℚ), (l.map (bumps dt)).sum ≤ fuel →
      ∀ e ∈ fixIntervalsFuel dt fuel l, dt ≤ e := by
  intro fuel
  induction fuel with
  | zero =>
    intro l hsum e he
    simp only [fixIntervalsFuel] at he
    have hz : (l.map (bumps dt)).sum = 0 := Nat.le_zero.mp hsum
    have : bumps dt e = 0 :=
      (List.sum_eq_zero_iff.mp hz) (bumps dt e) (List.mem_map_of_mem (bumps dt) he)
    exact bumps_eq_zero dt e hdt this
  | succ fuel ih =>
    intro l hsum e he
    by_cases hcond : minOf l < dt
    · rcases eq_or_ne l [] with hl | hl
      · subst hl
        rw [fixIntervalsFuel_nil] at he
        cases he
      · simp only [fixIntervalsFuel, hcond, if_true] at he
        have hdec := sum_bumps_bumpMin dt l hdt hl hcond
        exact ih (bumpMin dt l) (by omega) e he
    · simp only [fixIntervalsFuel, hcond, if_false] at he
      push_neg at hcond
      exact le_trans hcond (minOf_le l e he)

theorem fixIntervals_ge (dt : ℚ) (l : List ℚ) (hdt : 0 < dt) :
    ∀ e ∈ fixIntervals dt l, dt ≤ e :=
  fixIntervalsFuel_ge dt hdt ((l.map (bumps dt)).sum) l (le_refl _)

theorem fixIntervals_length (dt : ℚ) (l : List ℚ) :
    (fixIntervals dt l).length = l.length :=
  fixIntervalsFuel_length dt _ l

theorem chain_cumsumFrom (dt : ℚ) (l : List ℚ) (h : ∀ x ∈ l, dt ≤ x) :
    ∀ acc : ℚ, List.Chain' (fun a b => a + dt ≤ b) (cumsumFrom acc l) := by
  induction l with
  | nil => intro acc; simp [cumsumFrom]
  | cons x t ih =>
    intro acc
    simp only [cumsumFrom]
    rw [List.chain'_cons']
    constructor
    · intro b hb
      cases t with
      | nil => simp [cumsumFrom] at hb
      | cons y t' =>
        simp only [cumsumFrom, List.head?_cons, Option.mem_def, Option.some.injEq] at hb
        have hy : dt ≤ y := h y (by simp)
        subst hb
        linarith
    · exact ih (fun z hz => h z (List.mem_cons_of_mem x hz)) (acc + x)

/-- The interval clamp shared by both generators: a drawn interval below the
grid step becomes `dt` ("prevents spike stacking"). -/
def clampdt (dt d : ℚ) : ℚ := if d < dt then dt else d

/-- First `while` loop of `poisson_spikes`: retry until a clamped interval
fits strictly below the duration; the exponential draws arrive as an
explicit list, and `none` means the finite draw list ran out first. -/
def pois_first (dura dt : ℚ) : List ℚ → Option (ℚ × List ℚ)
  | [] => none
  | d :: rest =>
    if clampdt dt d < dura then some (clampdt dt d, rest) else pois_first dura dt rest

/-- Second `while` loop of `poisson_spikes`: while the last spike is below
the duration, append `last + clamped interval`; `none` when the draw list
runs out with the loop still going. -/
def pois_loop (dura dt : ℚ) : List ℚ → List ℚ → ℚ → Option (List ℚ)
  | [], acc, last => if last < dura then none else some acc
  | d :: rest, acc, last =>
    if last < dura then
      pois_loop dura dt rest (acc ++ [last + clampdt dt d]) (last + clampdt dt d)
    else some acc

/-- Embedding of `poisson_spikes` over an explicit list of exponential
draws (the rate parameter only shapes the distribution of the draws, so it
does not appear).  The final `spiketrain[:-1]` slice is `dropLast`. -/
def poisson_spikes (draws : List ℚ) (dura dt : ℚ) : Option (List ℚ) :=
  match pois_first dura dt draws with
  | none => none
  | some (first, rest) =>
    match pois_loop dura dt rest [first] first with
    | none => none
    | some st => some st.dropLast

theorem clampdt_ge (dt d : ℚ) : dt ≤ clampdt dt d := by
  unfold clampdt
  split
  · exact le_refl dt
  · linarith [not_lt.mp (by assumption)]

theorem pois_first_spec (dura dt : ℚ) :
    ∀ (draws : List ℚ) (first : ℚ) (rest : List ℚ),
      pois_first dura dt draws = some (first, rest) → dt ≤ first ∧ first < dura := by
  intro draws
  induction draws with
  | nil => intro first rest h; cases h
  | cons d t ih =>
    intro first rest h
    simp only [pois_first] at h
    split at h
    · have h' := Option.some.inj h
      have h1 : clampdt dt d = first := congrArg Prod.fst h'
      subst h1
      exact ⟨clampdt_ge dt d, by assumption⟩
    · exact ih first rest h

theorem mem_of_getLast?_dropLast (l : List ℚ) (last : ℚ) (dura : ℚ)
    (hl : l.getLast? = some last) (hd : ∀ x ∈ l.dropLast, x < dura)
    (hlast : last < dura) : ∀ x ∈ l, x < dura := by
  intro x hx
  have hne : l ≠ [] := by
    intro hc; subst hc; cases hl
  have hsplit := List.dropLast_append_getLast hne
  have hlastval : l.getLast hne = last := by
    have := List.getLast?_eq_getLast l hne
    rw [hl] at this
    exact (Option.some.inj this).symm
  rw [← hsplit] at hx
  rcases List.mem_append.mp hx with h | h
  · exact hd x h
  · rcases List.mem_singleton.mp h with h'
    rw [h', hlastval]
    exact hlast

theorem pois_loop_spec (dura dt : ℚ) :
    ∀ (draws acc : List ℚ) (last : ℚ) (out : List ℚ),
      acc ≠ [] → acc.getLast? = some last →
      List.Chain' (fun a b => a + dt ≤ b) acc →
      (∀ x ∈ acc.dropLast, x < dura) →
      dt ≤ acc.headD 0 →
      (2 ≤ acc.length ∨ last < dura) →
      pois_loop dura dt draws acc last = some out →
      2 ≤ out.length ∧ List.Chain' (fun a b => a + dt ≤ b) out ∧
        (∀ x ∈ out.dropLast, x < dura) ∧ dt ≤ out.headD 0 := by
  intro draws
  induction draws with
  | nil =>
    intro acc last out hne hlast hchain hdrop hhead hlen h
    simp only [pois_loop] at h
    split at h
    · cases h
    · rcases Option.some.inj h with h'
      subst h'
      rcases hlen with h2 | h2
      · exact ⟨h2, hchain, hdrop, hhead⟩
      · exact absurd h2 (by assumption)
  | cons d t ih =>
    intro acc last out hne hlast hchain hdrop hhead hlen h
    simp only [pois_loop] at h
    split at h
    · have hcond : last < dura := by assumption
      have hacc' : acc ++ [last + clampdt dt d] ≠ [] := by simp
      have hlast' : (acc ++ [last + clampdt dt d]).getLast? = some (last + clampdt dt d) :=
        List.getLast?_concat acc
      have hchain' : List.Chain' (fun a b => a + dt ≤ b) (acc ++ [last + clampdt dt d]) := by
        rw [List.chain'_append]
        refine ⟨hchain, List.chain'_singleton _, ?_⟩
        intro x hx y hy
        simp only [List.head?_cons, Option.mem_def, Option.some.injEq] at hy
        rw [hlast] at hx
        simp only [Option.mem_def, Option.some.injEq] at hx
        subst hx
        subst hy
        linarith [clampdt_ge dt d]
      have hdrop' : ∀ x ∈ (acc ++ [last + clampdt dt d]).dropLast, x < dura := by
        rw [List.dropLast_concat]
        exact mem_of_getLast?_dropLast acc last dura hlast hdrop hcond
      have hhead' : dt ≤ (acc ++ [last + clampdt dt d]).headD 0 := by
        cases acc with
        | nil => exact absurd rfl hne
        | cons a t' => simpa using hhead
      have hlen' : 2 ≤ (acc ++ [last + clampdt dt d]).length ∨
          last + clampdt dt d < dura := by
        left
        have : 1 ≤ acc.length := List.length_pos.mpr hne
        simp only [List.length_append, List.length_cons, List.length_nil]
        omega
      exact ih _ _ out hacc' hlast' hchain' hdrop' hhead' hlen' h
    · rcases Option.some.inj h with h'
      subst h'
      rcases hlen with h2 | h2
      · exact ⟨h2, hchain, hdrop, hhead⟩
      · exact absurd h2 (by assumption)

theorem dropLast_headD (l : List ℚ) (h : 2 ≤ l.length) :
    l.dropLast.headD 0 = l.headD 0 := by
  cases l with
  | nil => simp at h
  | cons a t =>
    cases t with
    | nil => simp at h
    | cons b t' => simp [List.dropLast]

/-- `max(st)` of the source, on integer bin indices; 0 on the empty list,
which the caller never reaches (it is only taken when spikes exist). -/
def maxOfInt : List ℤ → ℤ
  | [] => 0
  | a :: t => t.foldl max a

/-- numpy fancy assignment `bintimes[st] = 1` on a fresh zero vector of
length `n`.  Indices are applied in order via `set`. -/
def setOnes (n : ℕ) (idxs : List ℤ) : List ℚ :=
  idxs.foldl (fun w j => w.set j.toNat 1) (List.replicate n 0)

/-- Embedding of `times_to_bin`.  `none` models the numpy IndexError raised
by `bintimes[st] = 1` when an index is outside `[0, binlength)`: the
`st[-1] > binlength` guard filters only when the LAST index exceeds the
length, so an index equal to `binlength` slips through and the assignment
raises.  (numpy would wrap indices in `[-binlength, -1]`; spike times are
non-negative in the data model, so the embedding treats every out-of-range
index as the error.)  `int(duration/dt)` and `astype(int)` truncate toward
zero (`ratTrunc`). -/
def times_to_bin (spikes : List ℚ) (dt : ℚ) (duration : Option ℚ) : Option (List ℚ) :=
  if spikes = [] then
    match duration with
    | none => some []
    | some d => some (List.replicate (ratTrunc (d / dt)).toNat 0)
  else
    let st := spikes.map fun s => ratTrunc (s / dt)
    let binlength : ℤ :=
      match duration with
      | none => maxOfInt st + 1
      | some d => ratTrunc (d / dt)
    let st2 := if binlength < st.getLastD 0 then st.filter (fun i => decide (i < binlength)) else st
    if st2.all (fun i => decide (0 ≤ i ∧ i < binlength)) then
      some (setOnes binlength.toNat st2)
    else none

theorem ratTrunc_mono (a b : ℚ) (h : a ≤ b) : ratTrunc a ≤ ratTrunc b := by
  unfold ratTrunc
  by_cases ha : a < 0
  · by_cases hb : b < 0
    · rw [if_pos ha, if_pos hb]
      exact Int.ceil_le_ceil h
    · rw [if_pos ha, if_neg hb]
      have h1 : ⌈a⌉ ≤ 0 := Int.ceil_le.mpr (by exact_mod_cast le_of_lt ha)
      have h2 : (0 : ℤ) ≤ ⌊b⌋ := Int.floor_nonneg.mpr (not_lt.mp hb)
      omega
  · have hb : ¬b < 0 := fun hc => ha (lt_of_le_of_lt h hc)
    rw [if_neg ha, if_neg hb]
    exact Int.floor_le_floor h

theorem ratTrunc_nonneg (q : ℚ) (h : 0 ≤ q) : ratTrunc q = ⌊q⌋ ∧ 0 ≤ ratTrunc q := by
  unfold ratTrunc
  rw [if_neg (not_lt.mpr h)]
  exact ⟨rfl, Int.floor_nonneg.mpr h⟩

theorem getLastD_mem (l : List ℤ) (d : ℤ) (hne : l ≠ []) : l.getLastD d ∈ l := by
  induction l generalizing d with
  | nil => exact absurd rfl hne
  | cons a t ih =>
    cases t with
    | nil => simp
    | cons b t' =>
      rw [List.getLastD_cons]
      exact List.mem_cons_of_mem a (ih a (by simp))

theorem pairwise_le_getLastD (l : List ℤ) (d : ℤ)
    (hp : List.Pairwise (· ≤ ·) l) : ∀ x ∈ l, x ≤ l.getLastD d := by
  induction l generalizing d with
  | nil => intro x hx; cases hx
  | cons a t ih =>
    intro x hx
    cases t with
    | nil =>
      rcases List.mem_singleton.mp hx with h
      subst h
      simp
    | cons b t' =>
      rw [List.getLastD_cons]
      have hp' := List.pairwise_cons.mp hp
      rcases List.mem_cons.mp hx with h | h
      · have hab : a ≤ b := hp'.1 b (by simp)
        have hbl : b ≤ (b :: t').getLastD a := ih a hp'.2 b (by simp)
        rw [h]
        exact le_trans hab hbl
      · exact ih a hp'.2 x h

theorem getD_set_eq_ite (l : List ℚ) (i k : ℕ) (a : ℚ) (hk : k < l.length) :
    (l.set i a).getD k 0 = if i = k then a else l.getD k 0 := by
  induction l generalizing i k with
  | nil => simp at hk
  | cons c t ih =>
    cases i with
    | zero =>
      cases k with
      | zero => simp [List.set]
      | succ k' => simp [List.set]
    | succ i' =>
      cases k with
      | zero => simp [List.set]
      | succ k' =>
        simp only [List.set, List.getD_cons_succ]
        rw [ih i' k' (by simpa using hk)]
        by_cases h : i' = k' <;> simp [h]

theorem foldl_set_length (idxs : List ℤ) (v : List ℚ) :
    (idxs.foldl (fun w j => w.set j.toNat 1) v).length = v.length := by
  induction idxs generalizing v with
  | nil => rfl
  | cons j rest ih => simp [List.foldl_cons, ih]

theorem foldl_set_getD (idxs : List ℤ) (v : List ℚ) (i : ℕ) (hi : i < v.length) :
    (idxs.foldl (fun w j => w.set j.toNat 1) v).getD i 0 =
      if ∃ j ∈ idxs, j.toNat = i then 1 else v.getD i 0 := by
  induction idxs generalizing v with
  | nil => simp
  | cons j rest ih =>
    simp only [List.foldl_cons]
    rw [ih (v.set j.toNat 1) (by simpa using hi)]
    by_cases hrest : ∃ k ∈ rest, k.toNat = i
    · have hall : ∃ k ∈ j :: rest, k.toNat = i := by
        rcases hrest with ⟨k, hk, hke⟩
        exact ⟨k, List.mem_cons_of_mem j hk, hke⟩
      rw [if_pos hrest, if_pos hall]
    · rw [if_neg hrest, getD_set_eq_ite v j.toNat i 1 hi]
      by_cases hj : j.toNat = i
      · have hall : ∃ k ∈ j :: rest, k.toNat = i := ⟨j, List.mem_cons_self j rest, hj⟩
        rw [if_pos hj, if_pos hall]
      · have hnall : ¬∃ k ∈ j :: rest, k.toNat = i := by
          rintro ⟨k, hk, hke⟩
          rcases List.mem_cons.mp hk with h | h
          · subst h; exact hj hke
          · exact hrest ⟨k, h, hke⟩
        rw [if_neg hj, if_neg hnall]

theorem setOnes_length (n : ℕ) (idxs : List ℤ) : (setOnes n idxs).length = n := by
  rw [setOnes, foldl_set_length, List.length_replicate]

theorem setOnes_getD (n : ℕ) (idxs : List ℤ) (i : ℕ) (hi : i < n) :
    (setOnes n idxs).getD i 0 = if ∃ j ∈ idxs, j.toNat = i then 1 else 0 := by
  rw [setOnes, foldl_set_getD idxs _ i (by simpa using hi)]
  have hrep : (List.replicate n (0 : ℚ)).getD i 0 = 0 := by
    rw [List.getD_eq_getElem _ _ (by simpa using hi)]
    simp
  rw [hrep]

/-- Indexing a membrane trace at an integer grid index, `mem[i]`.  numpy
would wrap a negative in-range index and raise out of range; the claims
under study only evaluate in-range non-negative indices, where `getD`
agrees with numpy. -/
def memIdx (mem : List ℚ) (i : ℤ) : ℚ := mem.getD i.toNat 0

/-- The window-length computation of `firing_slope`: ISIs with the first
spike time prepended (`insert(intervals, 0, spiketrain[0])`), each mapped
to `min(w, interval - dt)` after `w = max(w, dt)`. -/
def firing_slope_windows (spiketrain : List ℚ) (dt w : ℚ) : List ℚ :=
  (spiketrain.headD 0 :: listDiff spiketrain).map (fun i => min (max w dt) (i - dt))

/-- Embedding of `firing_slope`.  Fewer than 2 spikes return `(0, [])`;
otherwise slope i is `(mem[st_i] - mem[st_i - w_i]) / window_i` with spike
and window grid indices truncated toward zero.  A zero window makes numpy
emit nan/inf with a warning; in exact rationals `x / 0 = 0` — the claim
theorems only assert slope values for nonzero windows. -/
def firing_slope (mem spiketrain : List ℚ) (dt w : ℚ) : ℚ × List ℚ :=
  if spiketrain.length < 2 then (0, [])
  else
    let windows := firing_slope_windows spiketrain dt w
    let st_dt := spiketrain.map (fun t => ratTrunc (t / dt))
    let w_dt := windows.map (fun x => ratTrunc (x / dt))
    let slopes := List.zipWith
      (fun p win => (memIdx mem p.1 - memIdx mem (p.1 - p.2)) / win)
      (st_dt.zip w_dt) windows
    (listMean slopes, slopes)

theorem firing_slope_windows_length (spiketrain : List ℚ) (dt w : ℚ)
    (hne : spiketrain ≠ []) :
    (firing_slope_windows spiketrain dt w).length = spiketrain.length := by
  have h1 : 1 ≤ spiketrain.length := List.length_pos.mpr hne
  simp only [firing_slope_windows, List.length_map, List.length_cons, listDiff_length]
  omega

theorem listDiff_getD (st : List ℚ) (j : ℕ) (hj : j + 1 < st.length) :
    (listDiff st).getD j 0 = st.getD (j + 1) 0 - st.getD j 0 := by
  induction st generalizing j with
  | nil => simp at hj
  | cons a t ih =>
    cases t with
    | nil => simp at hj
    | cons b t' =>
      cases j with
      | zero => simp [listDiff]
      | succ j' =>
        simp only [listDiff, List.getD_cons_succ]
        exact ih j' (by simpa using hj)

theorem getD_map_of_lt (f : ℚ → ℚ) (l : List ℚ) (i : ℕ) (hi : i < l.length) :
    (l.map f).getD i 0 = f (l.getD i 0) := by
  rw [List.getD_eq_getElem _ _ (by simpa using hi), List.getD_eq_getElem _ _ hi,
    List.getElem_map]

theorem firing_slope_windows_getD (spiketrain : List ℚ) (dt w : ℚ) (i : ℕ)
    (hi : i < spiketrain.length) :
    (firing_slope_windows spiketrain dt w).getD i 0 =
      min (max w dt)
        ((if i = 0 then spiketrain.getD 0 0
          else spiketrain.getD i 0 - spiketrain.getD (i - 1) 0) - dt) := by
  have hne : spiketrain ≠ [] := by
    intro hc
    rw [hc] at hi
    simp at hi
  have hlen : i < ((spiketrain.headD 0 :: listDiff spiketrain)).length := by
    simp only [List.length_cons, listDiff_length]
    have := List.length_pos.mpr hne
    omega
  rw [firing_slope_windows, getD_map_of_lt _ _ i hlen]
  cases i with
  | zero =>
    rw [List.getD_cons_zero]
    cases spiketrain with
    | nil => exact absurd rfl hne
    | cons a t => simp
  | succ j =>
    have hj : j + 1 < spiketrain.length := hi
    rw [List.getD_cons_succ, listDiff_getD spiketrain j hj]
    simp

theorem firing_slope_snd_length (mem spiketrain : List ℚ) (dt w : ℚ)
    (h2 : 2 ≤ spiketrain.length) :
    (firing_slope mem spiketrain dt w).2.length = spiketrain.length := by
  have hne : spiketrain ≠ [] := by
    intro hc; rw [hc] at h2; simp at h2
  have hwl := firing_slope_windows_length spiketrain dt w hne
  simp only [firing_slope, if_neg (not_lt.mpr h2)]
  simp [List.length_zipWith, List.length_zip, hwl]

theorem firing_slope_snd_getD (mem spiketrain : List ℚ) (dt w : ℚ)
    (h2 : 2 ≤ spiketrain.length) (i : ℕ) (hi : i < spiketrain.length) :
    (firing_slope mem spiketrain dt w).2.getD i 0 =
      (memIdx mem (ratTrunc (spiketrain.getD i 0 / dt)) -
        memIdx mem (ratTrunc (spiketrain.getD i 0 / dt) -
          ratTrunc ((firing_slope_windows spiketrain dt w).getD i 0 / dt))) /
        (firing_slope_windows spiketrain dt w).getD i 0 := by
  have hne : spiketrain ≠ [] := by
    intro hc; rw [hc] at h2; simp at h2
  have hwl := firing_slope_windows_length spiketrain dt w hne
  have hiw : i < (firing_slope_windows spiketrain dt w).length := by omega
  have hunfold : (firing_slope mem spiketrain dt w).2 =
      List.zipWith (fun p win => (memIdx mem p.1 - memIdx mem (p.1 - p.2)) / win)
        ((spiketrain.map (fun t => ratTrunc (t / dt))).zip
          ((firing_slope_windows spiketrain dt w).map (fun x => ratTrunc (x / dt))))
        (firing_slope_windows spiketrain dt w) := by
    simp only [firing_slope, if_neg (not_lt.mpr h2)]
  have hzipl : ((spiketrain.map (fun t => ratTrunc (t / dt))).zip
      ((firing_slope_windows spiketrain dt w).map (fun x => ratTrunc (x / dt)))).length
      = spiketrain.length := by
    simp [List.length_zip, hwl]
  have hl : ((firing_slope mem spiketrain dt w).2).length = spiketrain.length :=
    firing_slope_snd_length mem spiketrain dt w h2
  have hib : i < (List.zipWith (fun p win => (memIdx mem p.1 - memIdx mem (p.1 - p.2)) / win)
      ((spiketrain.map (fun t => ratTrunc (t / dt))).zip
        ((firing_slope_windows spiketrain dt w).map (fun x => ratTrunc (x / dt))))
      (firing_slope_windows spiketrain dt w)).length := by
    rw [← hunfold]; omega
  rw [hunfold, List.getD_eq_getElem _ _ hib, List.getElem_zipWith, List.getElem_zip,
    List.getElem_map, List.getElem_map,
    List.getD_eq_getElem spiketrain 0 hi,
    List.getD_eq_getElem (firing_slope_windows spiketrain dt w) 0 hiw]

/-- Embedding of `norm_firing_slope`.  `rexp` abstracts `numpy.exp` (a real
transcendental), passed as an explicit function parameter to keep the model
executable over exact rationals; the structural claims under study do not
depend on its values.  `none` models the IndexError raised by
`spiketrain[0]` when the early-spike filter leaves no spike. -/
def norm_firing_slope (rexp : ℚ → ℚ) (mem spiketrain : List ℚ)
    (th tau dt w : ℚ) : Option (ℚ × List ℚ) :=
  let w' := max w dt
  if spiketrain.length < 2 then some (0, [])
  else
    let st := spiketrain.filter (fun t => decide (w' < t))
    if st = [] then none
    else
      let slopes := (firing_slope mem st dt w').2
      let reset := memIdx mem (ratTrunc (st.headD 0 / dt) + 1)
      let slope_max := (th - reset) / w'
      let slope_min := (listDiff st).map (fun isi =>
        (th - (reset + (th - reset) / (1 - rexp (-isi / tau)) *
          (1 - rexp (-(isi - w') / tau)))) / w')
      let slopes_normed := List.zipWith (fun s smin => (s - smin) / (slope_max - smin))
        (slopes.drop 1) slope_min
      some (listMean slopes_normed, slopes_normed)

/-- Embedding of `sta`, restricted to the window matrix `sta_wins` (the
other two results are the elementwise mean and standard deviation over this
matrix; std involves a real square root and the claim under study concerns
only the matrix).  The source writes each slice into a row of a
preallocated `zeros((n, w_d))` matrix; an overlong spike index would make
the numpy slice shorter than a row and raise a broadcast error — the claim
hypotheses keep every spike index within the trace. -/
def sta_wins (v spiketrain : List ℚ) (w dt : ℚ) : List (List ℚ) :=
  if spiketrain.length ≤ 1 then []
  else
    spiketrain.map (fun st =>
      if (ratTrunc (w / dt)).toNat < (ratTrunc (st / dt)).toNat then
        (v.drop ((ratTrunc (st / dt)).toNat - (ratTrunc (w / dt)).toNat)).take
          (ratTrunc (w / dt)).toNat
      else
        List.replicate ((ratTrunc (w / dt)).toNat - (ratTrunc (st / dt)).toNat) 0 ++
          v.take (ratTrunc (st / dt)).toNat)

/-- Python-level container shapes passed to the population binning
functions: a bare number, a Python list, a dict (only the values matter:
the code iterates `spikes.itervalues()`), or a numpy ndarray. -/
inductive PyObj where
  | scalar (q : ℚ)
  | pylist (xs : List PyObj)
  | pydict (vals : List PyObj)
  | ndarray (xs : List PyObj)

/-- The container dispatch shared verbatim by `times_to_bin_multi` and
`PSTH`:
`if isinstance(spikes, dict): ... elif isinstance(spikes, list) or
isinstance(spikes, array): ... else: raise TypeError(...)`.
`array` there is numpy's `array` FUNCTION, not a type, so the second
isinstance itself raises TypeError ("isinstance() arg 2 must be a type")
for every input that is neither a dict nor a list — including a numpy
ndarray, a shape the docstring says is expected; the explicit
`raise TypeError('dictionary, list or array expected')` is unreachable. -/
def container_dispatch : PyObj → Except String (List PyObj)
  | .pydict vals => .ok vals
  | .pylist xs => .ok xs
  | _ => .error "TypeError: isinstance() arg 2 must be a type or tuple of types"

/-- `shape(x) == ()` test of `recursiveflat`. -/
def isScalar : PyObj → Bool
  | .scalar _ => true
  | _ => false

/-- One level of `[item for row in ndobject for item in row]`: concatenate
the children of every element; `none` when a row is not iterable (a bare
number raises TypeError there).  A dict row would iterate its keys, a case
outside every claim, modelled as the same row error. -/
def flattenStep : List PyObj → Option (List PyObj)
  | [] => some []
  | .pylist xs :: rest => (flattenStep rest).map (xs ++ ·)
  | .ndarray xs :: rest => (flattenStep rest).map (xs ++ ·)
  | _ => none

/-- Structural size of a Python object, bounding the nesting depth; used
only as the iteration counter of the flatten recursion. -/
def pySize : PyObj → ℕ
  | .scalar _ => 1
  | .pylist xs => 1 + (xs.attach.map (fun x => pySize x.1)).sum
  | .pydict xs => 1 + (xs.attach.map (fun x => pySize x.1)).sum
  | .ndarray xs => 1 + (xs.attach.map (fun x => pySize x.1)).sum
decreasing_by
  all_goals
    simp only [PyObj.pylist.sizeOf_spec, PyObj.pydict.sizeOf_spec, PyObj.ndarray.sizeOf_spec]
    have := List.sizeOf_lt_of_mem x.2
    omega

/-- The recursion of `recursiveflat` with an explicit iteration counter.
Each successful flatten strictly shrinks the summed term size, so the
counter used by `recursiveflat` below is never exhausted on inputs where
the source recursion terminates; the fuel-0 arm returns the list unchanged
like the scalar base case. -/
def recursiveflatFuel : ℕ → List PyObj → Except String (List PyObj)
  | 0, l => .ok l
  | _ + 1, [] => .ok []
  | fuel + 1, x :: rest =>
    if isScalar x then .ok (x :: rest)
    else
      match flattenStep (x :: rest) with
      | none => .error "TypeError: argument of type numeric is not iterable"
      | some l2 => recursiveflatFuel fuel l2

/-- Embedding of `recursiveflat`: flatten level by level until the first
element is a scalar (or the list is empty). -/
def recursiveflat (l : List PyObj) : Except String (List PyObj) :=
  recursiveflatFuel ((l.map pySize).sum + 1) l

/-- Read a flattened object list back as numbers; `none` when a non-number
remains (the numpy comparisons downstream would fail). -/
def allScalarsQ : List PyObj → Option (List ℚ)
  | [] => some []
  | .scalar q :: rest => (allScalarsQ rest).map (q :: ·)
  | _ => none

/-- A spike-train entry of the ensemble as a flat numeric sequence, as the
per-train `times_to_bin` call requires; `none` marks entries on which that
call raises (a bare number reaches `len()` and raises TypeError). -/
def asFlatTrain : PyObj → Option (List ℚ)
  | .pylist xs => allScalarsQ xs
  | .ndarray xs => allScalarsQ xs
  | _ => none

/-- The `[times_to_bin(st, dt=dt, duration=duration) for st in spiketimes]`
comprehension of `times_to_bin_multi`. -/
def binAll (dt duration : ℚ) : List PyObj → Except String (List (List ℚ))
  | [] => .ok []
  | tr :: rest =>
    match asFlatTrain tr with
    | none => .error "TypeError: object of type numeric has no len()"
    | some l =>
      match times_to_bin l dt (some duration) with
      | none => .error "IndexError: index out of bounds"
      | some b =>
        match binAll dt duration rest with
        | .error e => .error e
        | .ok bs => .ok (b :: bs)

/-- Embedding of `times_to_bin_multi` with an explicit duration (the
duration-inference branch is not exercised by the claims). -/
def times_to_bin_multi (spikes : PyObj) (dt duration : ℚ) :
    Except String (List (List ℚ)) :=
  match container_dispatch spikes with
  | .error e => .error e
  | .ok trains => binAll dt duration trains

/-- Embedding of `PSTH` (count vector only; the first returned component is
just the bin-edge grid).  `bin` is clamped up to `dt`; the flattened spikes
are counted per bin over `nbins = int(duration/bin)` bins. -/
def PSTH (spikes : PyObj) (bin dt duration : ℚ) : Except String (List ℚ) :=
  match container_dispatch spikes with
  | .error e => .error e
  | .ok trains =>
    match recursiveflat trains with
    | .error e => .error e
    | .ok flatobjs =>
      match allScalarsQ flatobjs with
      | none => .error "TypeError: comparison on non-numeric data"
      | some flat =>
        .ok ((List.range (ratTrunc (duration / max bin dt)).toNat).map
          (fun b => ((flat.filter (fun s =>
            decide ((b : ℚ) * max bin dt ≤ s ∧
              s < ((b : ℚ) + 1) * max bin dt))).length : ℚ)))

theorem allScalarsQ_map (l : List ℚ) : allScalarsQ (l.map PyObj.scalar) = some l := by
  induction l with
  | nil => rfl
  | cons q t ih => simp [allScalarsQ, ih]

theorem flattenStep_trains (trains : List (List ℚ)) :
    flattenStep (trains.map (fun l => PyObj.pylist (l.map PyObj.scalar))) =
      some ((trains.map (fun l => l.map PyObj.scalar)).flatten) := by
  induction trains with
  | nil => rfl
  | cons l t ih => simp [flattenStep, ih]

theorem recursiveflatFuel_scalars (fuel : ℕ) (flat : List PyObj)
    (h : ∀ x ∈ flat, isScalar x = true) (hf : 1 ≤ fuel) :
    recursiveflatFuel fuel flat = .ok flat := by
  cases fuel with
  | zero => omega
  | succ fuel =>
    cases flat with
    | nil => rfl
    | cons x rest =>
      simp only [recursiveflatFuel]
      rw [if_pos (h x (by simp))]

theorem pySize_pos (x : PyObj) : 1 ≤ pySize x := by
  cases x <;> rw [pySize] <;> omega

theorem recursiveflat_trains (trains : List (List ℚ)) :
    recursiveflat (trains.map (fun l => PyObj.pylist (l.map PyObj.scalar))) =
      .ok ((trains.flatten).map PyObj.scalar) := by
  have hjoin : (trains.map (fun l => l.map PyObj.scalar)).flatten =
      (trains.flatten).map PyObj.scalar := by
    induction trains with
    | nil => rfl
    | cons l t ih =>
      simp only [List.map_cons, List.flatten_cons, List.map_append, ih]
  cases trains with
  | nil => rfl
  | cons l t =>
    rw [recursiveflat]
    have hsum : 1 ≤ (((l :: t).map (fun l => PyObj.pylist (l.map PyObj.scalar))).map
        pySize).sum := by
      simp only [List.map_cons, List.sum_cons]
      have := pySize_pos (PyObj.pylist (l.map PyObj.scalar))
      omega
    have hstep := flattenStep_trains (l :: t)
    simp only [List.map_cons] at hstep hsum ⊢
    have hXY : (List.map PyObj.scalar l ::
        List.map (fun l => List.map PyObj.scalar l) t).flatten =
        List.map PyObj.scalar (l :: t).flatten := by
      simpa using hjoin
    have hmem : ∀ x ∈ (List.map PyObj.scalar l ::
        List.map (fun l => List.map PyObj.scalar l) t).flatten, isScalar x = true := by
      rw [hXY]
      intro x hx
      rcases List.mem_map.mp hx with ⟨q, _, rfl⟩
      rfl
    have hfirst : isScalar (PyObj.pylist (l.map PyObj.scalar)) = false := rfl
    simp only [recursiveflatFuel, hfirst, Bool.false_eq_true, if_false]
    rw [hstep, ← hXY]
    exact recursiveflatFuel_scalars _ _ hmem hsum

/-- Embedding of the synchrony-fraction validation at the top of `sync_inp`
(the bounded composer): out-of-range `s` is replaced by 1 and a warning is
issued; the function then proceeds to build the ensemble (it has no
exception path).  First component: corrected value; second: warning flag. -/
def sync_inp_s_check (s : ℚ) : ℚ × Bool :=
  if 0 ≤ s ∧ s ≤ 1 then (s, false) else (1, true)

/-- Embedding of the synchrony-fraction validation at the top of
`SynchronousInputGroup.configure_generators` (the unbounded composer):
out-of-range `sync` is replaced by 0 with a warning, and the function
proceeds. -/
def configure_generators_sync_check (sync : ℚ) : ℚ × Bool :=
  if 0 ≤ sync ∧ sync ≤ 1 then (sync, false) else (0, true)

/-- Embedding of `CV2`: ISIs by `diff`, early return 0 for zero ISIs, then a
`range(N-1)` loop accumulating `|isi[i]-isi[i+1]|/(isi[i]+isi[i+1])`, and the
final result `mi_total*2/N`. -/
def CV2 (spiketrain : List ℚ) : ℚ :=
  let isi := listDiff spiketrain
  let N := isi.length
  if N = 0 then 0
  else
    let mi_total := ((List.range (N - 1)).map
      (fun i => |isi.getD i 0 - isi.getD (i + 1) 0| /
        (isi.getD i 0 + isi.getD (i + 1) 0))).sum
    mi_total * 2 / (N : ℚ)

/-- The CV2 of the specification text, written from its words for
comparison: the MEAN over the N-1 adjacent ISI pairs of
`2*|isi_i - isi_j|/(isi_i + isi_j)`, i.e. the pair sum divided by the
number of pairs. -/
def CV2_specMean (spiketrain : List ℚ) : ℚ :=
  let isi := listDiff spiketrain
  pairSum (fun a b => 2 * |a - b| / (a + b)) isi / ((isi.length - 1 : ℕ) : ℚ)

theorem range_map_getD_eq_pairSum (g : ℚ → ℚ → ℚ) (l : List ℚ) :
    ((List.range (l.length - 1)).map
      (fun i => g (l.getD i 0) (l.getD (i + 1) 0))).sum = pairSum g l := by
  induction l with
  | nil => rfl
  | cons a t ih =>
    cases t with
    | nil => rfl
    | cons b t' =>
      have hlen : (a :: b :: t').length - 1 = (b :: t').length - 1 + 1 := by
        simp [List.length_cons]
      rw [hlen, List.range_succ_eq_map]
      simp only [List.map_cons, List.map_map, List.sum_cons]
      have harg : ∀ i : ℕ, ((a :: b :: t').getD (i + 1) 0) = ((b :: t').getD i 0) := by
        intro i; rfl
      have : ((List.range ((b :: t').length - 1)).map
          ((fun i => g ((a :: b :: t').getD i 0) ((a :: b :: t').getD (i + 1) 0)) ∘
            (fun i => i + 1))).sum
          = ((List.range ((b :: t').length - 1)).map
            (fun i => g ((b :: t').getD i 0) ((b :: t').getD (i + 1) 0))).sum := by
        apply congrArg
        apply List.map_congr_left
        intro i _
        rfl
      rw [this, ih]
      rfl

theorem pairSum_cv2_mul (l : List ℚ) :
    pairSum (fun a b => 2 * |a - b| / (a + b)) l =
      2 * pairSum (fun a b => |a - b| / (a + b)) l := by
  induction l with
  | nil => simp [pairSum]
  | cons a t ih =>
    cases t with
    | nil => simp [pairSum]
    | cons b t' =>
      simp only [pairSum] at *
      rw [ih]
      ring

end Neurotools

namespace Neurotools

/-- Claim C1, as stated, is false: at the out-of-range synchrony fraction 2
the bounded composer `sync_inp` corrects to 1 (not, as claimed, to 0) and
the unbounded composer corrects to 0 (not to 1); both warn. -/
theorem claim1_counterexample :
    sync_inp_s_check 2 ≠ (0, true) ∧ configure_generators_sync_check 2 ≠ (1, true) ∧
    sync_inp_s_check 2 = (1, true) ∧ configure_generators_sync_check 2 = (0, true) := by
  refine ⟨?_, ?_, ?_, ?_⟩ <;> decide

/-- Claim C1 (amended): when the synchrony fraction is outside [0,1], the
bounded composer `sync_inp` corrects it to the boundary value 1 and the
unbounded composer `SynchronousInputGroup.configure_generators` corrects it
to the boundary value 0, in both cases surfacing a warning and proceeding
(never fatal); in-range values pass through unwarned. -/
theorem claim1_amended (s : ℚ) (h : ¬(0 ≤ s ∧ s ≤ 1)) :
    sync_inp_s_check s = (1, true) ∧ configure_generators_sync_check s = (0, true) := by
  constructor
  · simp [sync_inp_s_check, h]
  · simp [configure_generators_sync_check, h]

/-- Witness for the amended claim C1 at the concrete out-of-range input 2. -/
theorem claim1_witness :
    sync_inp_s_check 2 = (1, true) ∧ configure_generators_sync_check 2 = (0, true) :=
  claim1_amended 2 (by norm_num)

/-- Claim C5, as stated, is false: on the spike train [0, 1, 4] (ISIs [1, 3],
N = 2, one adjacent pair) the code returns 1/2 while the claimed mean over
the N-1 pairs is 1: the loop total is divided by N, not by the pair count. -/
theorem claim5_counterexample :
    CV2 [0, 1, 4] = 1/2 ∧ CV2_specMean [0, 1, 4] = 1 ∧ (1/2 : ℚ) ≠ 1 := by
  refine ⟨?_, ?_, ?_⟩ <;> norm_num [CV2, CV2_specMean, listDiff, pairSum, List.range_succ]

/-- Claim C5 (amended): for every spike train whose ISI sequence has N >= 1
elements, CV2 equals the sum over the N-1 adjacent ISI pairs of
`2*|isi_i - isi_j|/(isi_i + isi_j)` divided by N, the number of ISIs (not by
the number of pairs). -/
theorem claim5_amended (spiketrain : List ℚ) (h : 1 ≤ (listDiff spiketrain).length) :
    CV2 spiketrain =
      pairSum (fun a b => 2 * |a - b| / (a + b)) (listDiff spiketrain) /
        ((listDiff spiketrain).length : ℚ) := by
  have hne : (listDiff spiketrain).length ≠ 0 := by omega
  simp only [CV2, hne, if_false]
  rw [range_map_getD_eq_pairSum (fun a b => |a - b| / (a + b)) (listDiff spiketrain)]
  rw [pairSum_cv2_mul (listDiff spiketrain)]
  ring

/-- Claim C2, as stated, is false: on the two-spike train [1, 2] with zero
jitter offsets (sigma = 1 > 0, dt = 1) the code returns the one-element
train [1]: rebuilding the train as `cumsum(diff(...))` drops one event, so
the output length is not the input length. -/
theorem claim2_counterexample :
    add_gauss_jitter [1, 2] [0, 0] 1 1 = some [1] ∧
      ([1] : List ℚ).length ≠ ([1, 2] : List ℚ).length := by
  constructor
  · norm_num [add_gauss_jitter, sortList, insertSorted, listDiff, fixIntervals,
      fixIntervalsFuel, bumps, cumsum, cumsumFrom]
  · decide

/-- Claim C2 (amended): for every input spike train with at least two events
and every jitter standard deviation sigma > 0 (with matching Gaussian draw
list and grid step dt > 0), `add_gauss_jitter` returns a new spike train that
is monotonically increasing with every adjacent gap >= dt, but with one
event FEWER than the input train (the source rebuilds the train from its
interval sequence by `cumsum`, losing the first event); on trains with
fewer than two events it raises instead of returning. -/
theorem claim2_amended (spiketrain offsets : List ℚ) (jitter dt : ℚ)
    (hlen : offsets.length = spiketrain.length) (hn : 2 ≤ spiketrain.length)
    (hj : 0 < jitter) (hdt : 0 < dt) :
    ∃ out, add_gauss_jitter spiketrain offsets jitter dt = some out ∧
      out.length = spiketrain.length - 1 ∧
      List.Chain' (fun a b => a + dt ≤ b) out ∧
      List.Chain' (· < ·) out := by
  have hj0 : jitter ≠ 0 := ne_of_gt hj
  have hzlen : (List.zipWith (· + ·) spiketrain offsets).length = spiketrain.length := by
    rw [List.length_zipWith, hlen, min_self]
  have hslen : (sortList (List.zipWith (· + ·) spiketrain offsets)).length
      = spiketrain.length := by
    rw [sortList_length, hzlen]
  have hilen : (listDiff (sortList (List.zipWith (· + ·) spiketrain offsets))).length
      = spiketrain.length - 1 := by
    rw [listDiff_length, hslen]
  have hine : listDiff (sortList (List.zipWith (· + ·) spiketrain offsets)) ≠ [] := by
    intro hc
    rw [hc] at hilen
    simp at hilen
    omega
  refine ⟨cumsum (fixIntervals dt
    (listDiff (sortList (List.zipWith (· + ·) spiketrain offsets)))), ?_, ?_, ?_, ?_⟩
  · simp [add_gauss_jitter, hj0, hine]
  · rw [cumsum, cumsumFrom_length, fixIntervals_length, hilen]
  · exact chain_cumsumFrom dt _ (fixIntervals_ge dt _ hdt) 0
  · exact List.Chain'.imp (fun a b hab => by linarith)
      (chain_cumsumFrom dt _ (fixIntervals_ge dt _ hdt) 0)

/-- Witness for the amended claim C2 on the train [1, 2] with zero offsets,
sigma = 1, dt = 1. -/
theorem claim2_witness :
    ∃ out, add_gauss_jitter [1, 2] [0, 0] 1 1 = some out ∧
      out.length = ([1, 2] : List ℚ).length - 1 ∧
      List.Chain' (fun a b => a + (1 : ℚ) ≤ b) out ∧
      List.Chain' (· < ·) out :=
  claim2_amended [1, 2] [0, 0] 1 1 (by decide) (by decide) (by norm_num) (by norm_num)

theorem chain_dropLast (R : ℚ → ℚ → Prop) (l : List ℚ)
    (h : List.Chain' R l) : List.Chain' R l.dropLast := by
  rcases eq_or_ne l [] with hl | hl
  · subst hl; simp
  · have hsplit := List.dropLast_append_getLast hl
    rw [← hsplit] at h
    exact (List.chain'_append.mp h).1

/-- Claim C6: for every grid step dt > 0 and duration D > dt, whenever
`poisson_spikes` returns a train (the exponential draws are modelled as an
explicit list; the rate only shapes their distribution), the train is
non-empty, strictly increasing with every adjacent gap >= dt, its first
element is >= dt, and every element is strictly below D (the final
overflowing interval is dropped). -/
theorem claim6_poisson (draws : List ℚ) (dura dt : ℚ) (l : List ℚ)
    (hdt : 0 < dt) (hdur : dt < dura)
    (h : poisson_spikes draws dura dt = some l) :
    l ≠ [] ∧ List.Chain' (fun a b => a + dt ≤ b) l ∧ List.Chain' (· < ·) l ∧
      dt ≤ l.headD 0 ∧ ∀ x ∈ l, x < dura := by
  unfold poisson_spikes at h
  split at h
  · cases h
  · rename_i first rest hf
    split at h
    · cases h
    · rename_i st hl
      have hout : l = st.dropLast := (Option.some.inj h).symm
      have hfirst := pois_first_spec dura dt draws first rest hf
      have hspec := pois_loop_spec dura dt rest [first] first st
        (by simp) (by simp) (List.chain'_singleton first)
        (by simp) (by simpa using hfirst.1) (Or.inr hfirst.2) hl
      rcases hspec with ⟨h2, hchain, hdropin, hhead⟩
      subst hout
      refine ⟨?_, ?_, ?_, ?_, ?_⟩
      · have : st.dropLast.length = st.length - 1 := List.length_dropLast st
        intro hc
        rw [hc] at this
        simp at this
        omega
      · exact chain_dropLast _ st hchain
      · exact List.Chain'.imp (fun a b hab => by linarith) (chain_dropLast _ st hchain)
      · rw [dropLast_headD st h2]
        exact hhead
      · exact hdropin

/-- Witness for claim C6 with draws [2, 5], duration 3 and grid step 1: the
generator returns the one-spike train [2]. -/
theorem claim6_witness :
    ([2] : List ℚ) ≠ [] ∧ List.Chain' (fun a b => a + (1 : ℚ) ≤ b) [2] ∧
      List.Chain' (· < ·) ([2] : List ℚ) ∧ (1 : ℚ) ≤ ([2] : List ℚ).headD 0 ∧
      ∀ x ∈ ([2] : List ℚ), x < 3 :=
  claim6_poisson [2, 5] 3 1 [2] (by norm_num) (by norm_num)
    (by norm_num [poisson_spikes, pois_first, pois_loop, clampdt])

theorem times_to_bin_some_eq (spikes : List ℚ) (dt d : ℚ) (hne : spikes ≠ []) :
    times_to_bin spikes dt (some d) =
      if (if ratTrunc (d / dt) < (spikes.map fun s => ratTrunc (s / dt)).getLastD 0 then
            (spikes.map fun s => ratTrunc (s / dt)).filter fun i => decide (i < ratTrunc (d / dt))
          else spikes.map fun s => ratTrunc (s / dt)).all
          (fun i => decide (0 ≤ i ∧ i < ratTrunc (d / dt))) then
        some (setOnes (ratTrunc (d / dt)).toNat
          (if ratTrunc (d / dt) < (spikes.map fun s => ratTrunc (s / dt)).getLastD 0 then
            (spikes.map fun s => ratTrunc (s / dt)).filter fun i => decide (i < ratTrunc (d / dt))
          else spikes.map fun s => ratTrunc (s / dt)))
      else none := by
  simp only [times_to_bin, if_neg hne]

/-- Claim C4, as stated, is false: with duration 0.0035 and dt 0.001 the
grid has int(3.5) = 3 bins, not ceil(3.5) = 4: `binlength = int(duration/dt)`
truncates. -/
theorem claim4_counterexample :
    times_to_bin [3/2000, 1/400] (1/1000) (some (7/2000)) = some [0, 1, 1] ∧
      (⌈((7 : ℚ)/2000) / ((1 : ℚ)/1000)⌉ : ℤ) = 4 ∧
      ([0, 1, 1] : List ℚ).length = 3 ∧ (3 : ℕ) ≠ 4 := by
  refine ⟨?_, ?_, ?_, ?_⟩
  · have hne2 : ([3/2000, 1/400] : List ℚ) ≠ [] := by simp
    norm_num [times_to_bin, ratTrunc, setOnes, List.all_cons, List.filter, hne2,
      List.replicate, List.set]
  · rw [Int.ceil_eq_iff] <;> norm_num
  · norm_num
  · norm_num

/-- Claim C4 (amended): for every non-empty spike train (sorted,
non-negative times) and duration d >= 0 with grid step dt > 0, the grid
length is the TRUNCATED `int(d/dt)` (not the ceiling); when the largest bin
index differs from the grid length the call returns a binary vector of that
length with a bin 1 iff at least one spike truncates into it (multiple
spikes collapse to 1, indices beyond the grid are dropped); but when the
largest bin index equals the grid length exactly, the call raises an
IndexError instead of dropping the spike (the `st[-1] > binlength` guard
uses a strict comparison). -/
theorem claim4_amended (spikes : List ℚ) (dt d : ℚ)
    (hne : spikes ≠ []) (hdt : 0 < dt) (hd : 0 ≤ d)
    (hsort : List.Pairwise (· ≤ ·) spikes) (hpos : ∀ s ∈ spikes, 0 ≤ s) :
    ((spikes.map fun s => ratTrunc (s / dt)).getLastD 0 ≠ ratTrunc (d / dt) →
      ∃ v, times_to_bin spikes dt (some d) = some v ∧
        v.length = (ratTrunc (d / dt)).toNat ∧
        ∀ i : ℕ, i < (ratTrunc (d / dt)).toNat →
          (v.getD i 0 = 1 ↔ ∃ s ∈ spikes, ratTrunc (s / dt) = (i : ℤ))) ∧
    ((spikes.map fun s => ratTrunc (s / dt)).getLastD 0 = ratTrunc (d / dt) →
      times_to_bin spikes dt (some d) = none) := by
  rw [times_to_bin_some_eq spikes dt d hne]
  set st := spikes.map fun s => ratTrunc (s / dt) with hst
  set B := ratTrunc (d / dt) with hB
  have hstne : st ≠ [] := by
    rw [hst]
    simpa using hne
  have hjpos : ∀ j ∈ st, 0 ≤ j := by
    intro j hj
    rw [hst] at hj
    rcases List.mem_map.mp hj with ⟨s, hs, rfl⟩
    exact (ratTrunc_nonneg _ (div_nonneg (hpos s hs) (le_of_lt hdt))).2
  have hsortst : List.Pairwise (· ≤ ·) st := by
    rw [hst]
    exact hsort.map _ (fun a b hab => ratTrunc_mono _ _ (by gcongr))
  have hmax : ∀ j ∈ st, j ≤ st.getLastD 0 := pairwise_le_getLastD st 0 hsortst
  have hBpos : 0 ≤ B := (ratTrunc_nonneg _ (div_nonneg hd (le_of_lt hdt))).2
  constructor
  · intro hlast
    rcases lt_or_gt_of_ne hlast with hlt | hgt
    · rw [if_neg (not_lt.mpr (le_of_lt hlt))]
      have hall : (st.all fun i => decide (0 ≤ i ∧ i < B)) = true := by
        apply List.all_eq_true.mpr
        intro j hj
        simp only [decide_eq_true_eq]
        exact ⟨hjpos j hj, lt_of_le_of_lt (hmax j hj) hlt⟩
      rw [if_pos hall]
      refine ⟨setOnes B.toNat st, rfl, setOnes_length _ _, ?_⟩
      intro i hi
      rw [setOnes_getD _ _ i hi]
      constructor
      · intro h1
        by_cases hex : ∃ j ∈ st, j.toNat = i
        · rcases hex with ⟨j, hj, hji⟩
          have hjp := hjpos j hj
          rw [hst] at hj
          rcases List.mem_map.mp hj with ⟨s, hs, rfl⟩
          exact ⟨s, hs, by omega⟩
        · rw [if_neg hex] at h1
          norm_num at h1
      · rintro ⟨s, hs, hsi⟩
        have hex : ∃ j ∈ st, j.toNat = i := by
          refine ⟨ratTrunc (s / dt), ?_, by omega⟩
          rw [hst]
          exact List.mem_map_of_mem _ hs
        rw [if_pos hex]
    · rw [if_pos hgt]
      have hall : ((st.filter fun i => decide (i < B)).all
          fun i => decide (0 ≤ i ∧ i < B)) = true := by
        apply List.all_eq_true.mpr
        intro j hj
        rcases List.mem_filter.mp hj with ⟨hjst, hjB⟩
        simp only [decide_eq_true_eq] at hjB ⊢
        exact ⟨hjpos j hjst, hjB⟩
      rw [if_pos hall]
      refine ⟨setOnes B.toNat (st.filter fun i => decide (i < B)), rfl,
        setOnes_length _ _, ?_⟩
      intro i hi
      rw [setOnes_getD _ _ i hi]
      have hiB : (i : ℤ) < B := by omega
      constructor
      · intro h1
        by_cases hex : ∃ j ∈ st.filter (fun i => decide (i < B)), j.toNat = i
        · rcases hex with ⟨j, hj, hji⟩
          rcases List.mem_filter.mp hj with ⟨hjst, _⟩
          have hjp := hjpos j hjst
          rw [hst] at hjst
          rcases List.mem_map.mp hjst with ⟨s, hs, rfl⟩
          exact ⟨s, hs, by omega⟩
        · rw [if_neg hex] at h1
          norm_num at h1
      · rintro ⟨s, hs, hsi⟩
        have hjmem : ratTrunc (s / dt) ∈ st.filter (fun i => decide (i < B)) := by
          apply List.mem_filter.mpr
          constructor
          · rw [hst]
            exact List.mem_map_of_mem _ hs
          · simp only [decide_eq_true_eq]
            omega
        have hex : ∃ j ∈ st.filter (fun i => decide (i < B)), j.toNat = i :=
          ⟨ratTrunc (s / dt), hjmem, by omega⟩
        rw [if_pos hex]
  · intro hlast
    rw [hlast, if_neg (lt_irrefl B)]
    have hnall : ¬((st.all fun i => decide (0 ≤ i ∧ i < B)) = true) := by
      intro hall
      have hmem := getLastD_mem st 0 hstne
      have := List.all_eq_true.mp hall _ hmem
      rw [hlast] at this
      simp at this
    rw [if_neg hnall]

/-- Witness for the amended claim C4 at the scenario of the specification:
spikes [0.0015, 0.0025], dt 0.001, duration 0.004 give a 4-bin vector whose
bins 1 and 2 are set, i.e. [0, 1, 1, 0]. -/
theorem claim4_witness :
    ∃ v, times_to_bin [3/2000, 1/400] (1/1000) (some (1/250)) = some v ∧
      v.length = (ratTrunc ((1/250 : ℚ) / (1/1000))).toNat ∧
      ∀ i : ℕ, i < (ratTrunc ((1/250 : ℚ) / (1/1000))).toNat →
        (v.getD i 0 = 1 ↔
          ∃ s ∈ ([3/2000, 1/400] : List ℚ), ratTrunc (s / (1/1000)) = (i : ℤ)) :=
  (claim4_amended [3/2000, 1/400] (1/1000) (1/250) (by simp) (by norm_num)
    (by norm_num) (by norm_num [List.pairwise_cons]) (by
      intro s hs
      rcases List.mem_cons.mp hs with h | h
      · rw [h]; norm_num
      · rcases List.mem_singleton.mp h with h'
        rw [h']; norm_num)).1 (by norm_num [ratTrunc])

/-- Claim C3, as stated, is false: on the spike train [2, 3] with dt = 1 and
w = 5 the second spike has preceding ISI 1 = dt, so its window length is
min(5, 1 - 1) = 0, which IS below dt: the window lengths are not clamped
from below at dt. -/
theorem claim3_counterexample :
    firing_slope_windows [2, 3] 1 5 = [1, 0] ∧ ¬((1 : ℚ) ≤ 0) := by
  constructor
  · norm_num [firing_slope_windows, listDiff]
  · norm_num

/-- Claim C3 (amended): in `firing_slope`, for every spike train with at
least 2 spikes, the window length used for spike i equals
`min(max(w, dt), preceding_isi - dt)` (the first preceding interval being
the time since 0); this window CAN fall below dt — down to 0 when the
preceding ISI equals dt — and the slope for spike i equals
`(mem[spike index] - mem[spike index - window index]) / window` whenever
that window is nonzero (a zero window produces nan in the source). -/
theorem claim3_amended (mem spiketrain : List ℚ) (dt w : ℚ)
    (h2 : 2 ≤ spiketrain.length) :
    (firing_slope mem spiketrain dt w).2.length = spiketrain.length ∧
    (∀ i : ℕ, i < spiketrain.length →
      (firing_slope_windows spiketrain dt w).getD i 0 =
        min (max w dt)
          ((if i = 0 then spiketrain.getD 0 0
            else spiketrain.getD i 0 - spiketrain.getD (i - 1) 0) - dt)) ∧
    (∀ i : ℕ, i < spiketrain.length →
      (firing_slope_windows spiketrain dt w).getD i 0 ≠ 0 →
      (firing_slope mem spiketrain dt w).2.getD i 0 =
        (memIdx mem (ratTrunc (spiketrain.getD i 0 / dt)) -
          memIdx mem (ratTrunc (spiketrain.getD i 0 / dt) -
            ratTrunc ((firing_slope_windows spiketrain dt w).getD i 0 / dt))) /
          (firing_slope_windows spiketrain dt w).getD i 0) :=
  ⟨firing_slope_snd_length mem spiketrain dt w h2,
   fun i hi => firing_slope_windows_getD spiketrain dt w i hi,
   fun i hi _ => firing_slope_snd_getD mem spiketrain dt w h2 i hi⟩

/-- Witness for the amended claim C3 on trace [0, 2, 4, 6] and spike train
[2, 3] with dt = 1, w = 5. -/
theorem claim3_witness :
    (firing_slope [0, 2, 4, 6] [2, 3] 1 5).2.length = ([2, 3] : List ℚ).length ∧
    (∀ i : ℕ, i < ([2, 3] : List ℚ).length →
      (firing_slope_windows [2, 3] 1 5).getD i 0 =
        min (max 5 1)
          ((if i = 0 then ([2, 3] : List ℚ).getD 0 0
            else ([2, 3] : List ℚ).getD i 0 - ([2, 3] : List ℚ).getD (i - 1) 0) - 1)) ∧
    (∀ i : ℕ, i < ([2, 3] : List ℚ).length →
      (firing_slope_windows [2, 3] 1 5).getD i 0 ≠ 0 →
      (firing_slope [0, 2, 4, 6] [2, 3] 1 5).2.getD i 0 =
        (memIdx [0, 2, 4, 6] (ratTrunc (([2, 3] : List ℚ).getD i 0 / 1)) -
          memIdx [0, 2, 4, 6] (ratTrunc (([2, 3] : List ℚ).getD i 0 / 1) -
            ratTrunc ((firing_slope_windows [2, 3] 1 5).getD i 0 / 1))) /
          (firing_slope_windows [2, 3] 1 5).getD i 0) :=
  claim3_amended [0, 2, 4, 6] [2, 3] 1 5 (by norm_num)

/-- Claim C10: for every input on which `norm_firing_slope` succeeds with at
least 2 spikes remaining after discarding spikes at or before `max(w, dt)`,
the returned normalized-slope vector has length (retained spikes) - 1: the
raw slope of the first retained spike is dropped (`slopes[1:]`), so the
vector length equals the ISI count of the retained train. -/
theorem claim10_normed_length (rexp : ℚ → ℚ) (mem spiketrain : List ℚ)
    (th tau dt w : ℚ)
    (h2 : 2 ≤ (spiketrain.filter (fun t => decide (max w dt < t))).length) :
    ∃ m v, norm_firing_slope rexp mem spiketrain th tau dt w = some (m, v) ∧
      v.length = (spiketrain.filter (fun t => decide (max w dt < t))).length - 1 ∧
      v.length = (listDiff (spiketrain.filter (fun t => decide (max w dt < t)))).length := by
  have hle := List.length_filter_le (fun t => decide (max w dt < t)) spiketrain
  have hlen2 : ¬spiketrain.length < 2 := by omega
  have hstne : spiketrain.filter (fun t => decide (max w dt < t)) ≠ [] := by
    intro hc
    rw [hc] at h2
    simp at h2
  have hslopes : ((firing_slope mem (spiketrain.filter (fun t => decide (max w dt < t)))
      dt (max w dt)).2).length
      = (spiketrain.filter (fun t => decide (max w dt < t))).length :=
    firing_slope_snd_length _ _ _ _ h2
  obtain ⟨p, hp⟩ : ∃ p, norm_firing_slope rexp mem spiketrain th tau dt w = some p := by
    simp only [norm_firing_slope, if_neg hlen2, if_neg hstne]
    exact ⟨_, rfl⟩
  rcases p with ⟨m, v⟩
  refine ⟨m, v, hp, ?_⟩
  simp only [norm_firing_slope, if_neg hlen2, if_neg hstne] at hp
  have h' := Option.some.inj hp
  have hv := congrArg Prod.snd h'
  simp only at hv
  constructor
  · rw [← hv]
    simp only [List.length_zipWith, List.length_drop, List.length_map, listDiff_length,
      hslopes]
    omega
  · rw [← hv]
    simp only [List.length_zipWith, List.length_drop, List.length_map, listDiff_length,
      hslopes]
    omega

/-- Witness for claim C10: trace [0,0,0,0,0], spike train [2, 3], threshold
0, tau 1, dt 1, w 1, with the exponential abstracted by the zero function:
two spikes survive the filter and one normalized slope is returned. -/
theorem claim10_witness :
    ∃ m v, norm_firing_slope (fun _ => 0) [0, 0, 0, 0, 0] [2, 3] 0 1 1 1 = some (m, v) ∧
      v.length = (([2, 3] : List ℚ).filter
        (fun t => decide (max (1 : ℚ) 1 < t))).length - 1 ∧
      v.length = (listDiff (([2, 3] : List ℚ).filter
        (fun t => decide (max (1 : ℚ) 1 < t)))).length :=
  claim10_normed_length (fun _ => 0) [0, 0, 0, 0, 0] [2, 3] 0 1 1 1
    (by norm_num [List.filter])

/-- Claim C8: for every potential trace and every spike train with at least
2 spikes (all spike grid indices within the trace), `sta` returns exactly
one row of length `w/dt` per spike; a spike whose grid index `t_d` has at
least `w/dt` preceding samples gets the trace slice of the `w/dt` samples
ending at index `t_d` (at exactly `w/dt` preceding samples the source takes
its padding branch, which degenerates to the same full slice), and a spike
with fewer preceding samples gets a row left-padded with zeros followed by
the available samples — the spike is never dropped. -/
theorem claim8_sta (v spiketrain : List ℚ) (w dt : ℚ)
    (h2 : 2 ≤ spiketrain.length)
    (hin : ∀ s ∈ spiketrain, (ratTrunc (s / dt)).toNat ≤ v.length) :
    (sta_wins v spiketrain w dt).length = spiketrain.length ∧
    (∀ row ∈ sta_wins v spiketrain w dt, row.length = (ratTrunc (w / dt)).toNat) ∧
    (∀ i : ℕ, i < spiketrain.length →
      ((ratTrunc (w / dt)).toNat ≤ (ratTrunc (spiketrain.getD i 0 / dt)).toNat →
        (sta_wins v spiketrain w dt).getD i [] =
          (v.drop ((ratTrunc (spiketrain.getD i 0 / dt)).toNat -
            (ratTrunc (w / dt)).toNat)).take (ratTrunc (w / dt)).toNat) ∧
      ((ratTrunc (spiketrain.getD i 0 / dt)).toNat < (ratTrunc (w / dt)).toNat →
        (sta_wins v spiketrain w dt).getD i [] =
          List.replicate ((ratTrunc (w / dt)).toNat -
            (ratTrunc (spiketrain.getD i 0 / dt)).toNat) 0 ++
            v.take (ratTrunc (spiketrain.getD i 0 / dt)).toNat)) := by
  have hlen : ¬spiketrain.length ≤ 1 := by omega
  simp only [sta_wins, if_neg hlen]
  refine ⟨List.length_map _ _, ?_, ?_⟩
  · intro row hrow
    rcases List.mem_map.mp hrow with ⟨s, hs, rfl⟩
    by_cases hb : (ratTrunc (w / dt)).toNat < (ratTrunc (s / dt)).toNat
    · rw [if_pos hb]
      rw [List.length_take, List.length_drop]
      have := hin s hs
      omega
    · rw [if_neg hb]
      rw [List.length_append, List.length_replicate, List.length_take]
      have := hin s hs
      have hb' := not_lt.mp hb
      omega
  · intro i hi
    have hmem : spiketrain.getD i 0 ∈ spiketrain := by
      rw [List.getD_eq_getElem _ _ hi]
      exact List.getElem_mem hi
    have hgetD : (spiketrain.map (fun st =>
        if (ratTrunc (w / dt)).toNat < (ratTrunc (st / dt)).toNat then
          (v.drop ((ratTrunc (st / dt)).toNat - (ratTrunc (w / dt)).toNat)).take
            (ratTrunc (w / dt)).toNat
        else
          List.replicate ((ratTrunc (w / dt)).toNat - (ratTrunc (st / dt)).toNat) 0 ++
            v.take (ratTrunc (st / dt)).toNat)).getD i [] =
        (if (ratTrunc (w / dt)).toNat < (ratTrunc (spiketrain.getD i 0 / dt)).toNat then
          (v.drop ((ratTrunc (spiketrain.getD i 0 / dt)).toNat -
            (ratTrunc (w / dt)).toNat)).take (ratTrunc (w / dt)).toNat
        else
          List.replicate ((ratTrunc (w / dt)).toNat -
            (ratTrunc (spiketrain.getD i 0 / dt)).toNat) 0 ++
            v.take (ratTrunc (spiketrain.getD i 0 / dt)).toNat) := by
      rw [List.getD_eq_getElem _ _ (by simpa using hi), List.getElem_map,
        List.getD_eq_getElem _ _ hi]
    rw [hgetD]
    constructor
    · intro hge
      rcases lt_or_eq_of_le hge with hlt | heq
      · rw [if_pos hlt]
      · rw [if_neg (by omega)]
        rw [← heq]
        simp
    · intro hlt
      rw [if_neg (by omega)]

/-- Witness for claim C8: trace [10, 20, 30], spike train [1, 2], dt 1,
w 2: two rows of length 2, the first left-padded ([0, 10]), the second the
full slice [10, 20]. -/
theorem claim8_witness :
    (sta_wins [10, 20, 30] [1, 2] 2 1).length = ([1, 2] : List ℚ).length ∧
    (∀ row ∈ sta_wins [10, 20, 30] [1, 2] 2 1,
      row.length = (ratTrunc ((2 : ℚ) / 1)).toNat) ∧
    (∀ i : ℕ, i < ([1, 2] : List ℚ).length →
      ((ratTrunc ((2 : ℚ) / 1)).toNat ≤ (ratTrunc (([1, 2] : List ℚ).getD i 0 / 1)).toNat →
        (sta_wins [10, 20, 30] [1, 2] 2 1).getD i [] =
          (([10, 20, 30] : List ℚ).drop ((ratTrunc (([1, 2] : List ℚ).getD i 0 / 1)).toNat -
            (ratTrunc ((2 : ℚ) / 1)).toNat)).take (ratTrunc ((2 : ℚ) / 1)).toNat) ∧
      ((ratTrunc (([1, 2] : List ℚ).getD i 0 / 1)).toNat < (ratTrunc ((2 : ℚ) / 1)).toNat →
        (sta_wins [10, 20, 30] [1, 2] 2 1).getD i [] =
          List.replicate ((ratTrunc ((2 : ℚ) / 1)).toNat -
            (ratTrunc (([1, 2] : List ℚ).getD i 0 / 1)).toNat) 0 ++
            ([10, 20, 30] : List ℚ).take (ratTrunc (([1, 2] : List ℚ).getD i 0 / 1)).toNat)) :=
  claim8_sta [10, 20, 30] [1, 2] 2 1 (by norm_num) (by
    intro s hs
    rcases List.mem_cons.mp hs with h | h
    · rw [h]; norm_num [ratTrunc]
    · rcases List.mem_singleton.mp h with h'
      rw [h']; norm_num [ratTrunc])

theorem binAll_trains (dt dura : ℚ) (trains : List (List ℚ))
    (htb : ∀ l ∈ trains, (times_to_bin l dt (some dura)).isSome) :
    ∃ bs, binAll dt dura (trains.map (fun l => PyObj.pylist (l.map PyObj.scalar))) =
      .ok bs := by
  induction trains with
  | nil => exact ⟨[], rfl⟩
  | cons l t ih =>
    rcases ih (fun m hm => htb m (List.mem_cons_of_mem l hm)) with ⟨bs, hbs⟩
    rcases Option.isSome_iff_exists.mp (htb l (List.mem_cons_self l t)) with ⟨b, hb⟩
    refine ⟨b :: bs, ?_⟩
    simp only [List.map_cons, binAll, asFlatTrain, allScalarsQ_map, hb, hbs]

theorem recursiveflat_scalars (l : List ℚ) :
    recursiveflat (l.map PyObj.scalar) = .ok (l.map PyObj.scalar) := by
  rw [recursiveflat]
  apply recursiveflatFuel_scalars
  · intro x hx
    rcases List.mem_map.mp hx with ⟨q, _, rfl⟩
    rfl
  · omega

theorem PSTH_ok (spikes : PyObj) (bin dt dura : ℚ) (trains : List PyObj)
    (flat : List ℚ)
    (hdisp : container_dispatch spikes = .ok trains)
    (hflat : recursiveflat trains = .ok (flat.map PyObj.scalar)) :
    PSTH spikes bin dt dura =
      .ok ((List.range (ratTrunc (dura / max bin dt)).toNat).map
        (fun b => ((flat.filter (fun s => decide ((b : ℚ) * max bin dt ≤ s ∧
          s < ((b : ℚ) + 1) * max bin dt))).length : ℚ))) := by
  simp only [PSTH, hdisp, hflat, allScalarsQ_map]

/-- Claim C7, as stated, is false: a numpy ndarray ensemble — a shape the
claim says is accepted — aborts both `times_to_bin_multi` and `PSTH` with a
TypeError, because `isinstance(spikes, array)` passes numpy's `array`
function (not a type) as the second argument and isinstance itself
raises. -/
theorem claim7_counterexample :
    times_to_bin_multi (.ndarray [.pylist [.scalar 1]]) 1 3 =
      .error "TypeError: isinstance() arg 2 must be a type or tuple of types" ∧
    PSTH (.ndarray [.pylist [.scalar 1]]) 1 1 3 =
      .error "TypeError: isinstance() arg 2 must be a type or tuple of types" :=
  ⟨rfl, rfl⟩

/-- Claim C7 (amended): `PSTH` and `times_to_bin_multi` accept a mapping of
sequences or a Python list of sequences (flattened before binning in PSTH);
`PSTH` also accepts a flat numeric sequence, but `times_to_bin_multi`
aborts on one with a TypeError (each scalar entry reaches `len()` inside
`times_to_bin`); every other top-level shape — including a numpy ndarray
ensemble — aborts with a TypeError raised by the ill-formed
`isinstance(spikes, array)` check itself (numpy `array` is a function, not
a type; the coded `raise TypeError('dictionary, list or array expected')`
is unreachable). -/
theorem claim7_amended (trains : List (List ℚ)) (q : ℚ) (qs : List ℚ)
    (bin dt dura : ℚ)
    (htb : ∀ l ∈ trains, (times_to_bin l dt (some dura)).isSome) :
    (∃ bs, times_to_bin_multi
      (.pylist (trains.map (fun l => PyObj.pylist (l.map PyObj.scalar)))) dt dura =
        .ok bs) ∧
    (∃ bs, times_to_bin_multi
      (.pydict (trains.map (fun l => PyObj.pylist (l.map PyObj.scalar)))) dt dura =
        .ok bs) ∧
    (∃ cs, PSTH (.pylist (trains.map (fun l => PyObj.pylist (l.map PyObj.scalar))))
      bin dt dura = .ok cs) ∧
    (∃ cs, PSTH (.pydict (trains.map (fun l => PyObj.pylist (l.map PyObj.scalar))))
      bin dt dura = .ok cs) ∧
    (∃ cs, PSTH (.pylist ((q :: qs).map PyObj.scalar)) bin dt dura = .ok cs) ∧
    (∀ xs, times_to_bin_multi (.ndarray xs) dt dura =
      .error "TypeError: isinstance() arg 2 must be a type or tuple of types") ∧
    (∀ xs, PSTH (.ndarray xs) bin dt dura =
      .error "TypeError: isinstance() arg 2 must be a type or tuple of types") ∧
    times_to_bin_multi (.pylist ((q :: qs).map PyObj.scalar)) dt dura =
      .error "TypeError: object of type numeric has no len()" := by
  rcases binAll_trains dt dura trains htb with ⟨bs, hbs⟩
  refine ⟨⟨bs, hbs⟩, ⟨bs, hbs⟩, ?_, ?_, ?_, fun xs => rfl, fun xs => rfl, rfl⟩
  · exact ⟨_, PSTH_ok _ bin dt dura _ trains.flatten rfl (recursiveflat_trains trains)⟩
  · exact ⟨_, PSTH_ok _ bin dt dura _ trains.flatten rfl (recursiveflat_trains trains)⟩
  · exact ⟨_, PSTH_ok _ bin dt dura _ (q :: qs) rfl (recursiveflat_scalars (q :: qs))⟩

/-- Witness for the amended claim C7 with the ensemble [[0], [1]], the flat
sequence [0, 1], bin 1, dt 1 and duration 2. -/
theorem claim7_witness :
    (∃ bs, times_to_bin_multi
      (.pylist (([[0], [1]] : List (List ℚ)).map
        (fun l => PyObj.pylist (l.map PyObj.scalar)))) 1 2 = .ok bs) ∧
    (∃ bs, times_to_bin_multi
      (.pydict (([[0], [1]] : List (List ℚ)).map
        (fun l => PyObj.pylist (l.map PyObj.scalar)))) 1 2 = .ok bs) ∧
    (∃ cs, PSTH (.pylist (([[0], [1]] : List (List ℚ)).map
      (fun l => PyObj.pylist (l.map PyObj.scalar)))) 1 1 2 = .ok cs) ∧
    (∃ cs, PSTH (.pydict (([[0], [1]] : List (List ℚ)).map
      (fun l => PyObj.pylist (l.map PyObj.scalar)))) 1 1 2 = .ok cs) ∧
    (∃ cs, PSTH (.pylist ((((0 : ℚ) :: [1]).map PyObj.scalar))) 1 1 2 = .ok cs) ∧
    (∀ xs, times_to_bin_multi (.ndarray xs) 1 2 =
      .error "TypeError: isinstance() arg 2 must be a type or tuple of types") ∧
    (∀ xs, PSTH (.ndarray xs) 1 1 2 =
      .error "TypeError: isinstance() arg 2 must be a type or tuple of types") ∧
    times_to_bin_multi (.pylist (((0 : ℚ) :: [1]).map PyObj.scalar)) 1 2 =
      .error "TypeError: object of type numeric has no len()" :=
  claim7_amended [[0], [1]] 0 [1] 1 1 2 (by
    intro l hl
    rcases List.mem_cons.mp hl with h | h
    · rw [h, times_to_bin_some_eq _ _ _ (by simp)]
      norm_num [ratTrunc, List.all_cons]
    · rcases List.mem_singleton.mp h with h'
      rw [h', times_to_bin_some_eq _ _ _ (by simp)]
      norm_num [ratTrunc, List.all_cons])

/-- Claim C9: `add_gauss_jitter` with jitter standard deviation 0 is the
identity: it returns the input train unchanged, performing no sorting or
spacing correction, whatever the draw list, train and grid step. -/
theorem claim9_identity (spiketrain offsets : List ℚ) (dt : ℚ) :
    add_gauss_jitter spiketrain offsets 0 dt = some spiketrain := by
  simp [add_gauss_jitter]

/-- Witness for the amended claim C5 on the spike train [0, 1, 4]. -/
theorem claim5_witness :
    CV2 [0, 1, 4] =
      pairSum (fun a b => 2 * |a - b| / (a + b)) (listDiff [0, 1, 4]) /
        ((listDiff [0, 1, 4]).length : ℚ) :=
  claim5_amended [0, 1, 4] (by decide)

end Neurotools
